import Mathlib

/-!
Verification of the World-Clock overlap engine and zone-catalog builder.

The development shallowly embeds the computational core of the repository:

* `MeetingPanel.jsx`: the 96-slot 15-minute overlap grid (`mkSlots`), the
  working-window membership test (`workTest`), the reduction of the per-slot
  overlap flags into contiguous segments (`overlapSegments`), the 3-hour
  qualification flag (`hasFull3h`) and the earliest qualifying start
  (`earliestFull3h`).
* `timeUtils.js`: the continent classifier (`continentOf`) and the zone
  catalog builder (`buildZonesList`) with its sort comparator.

JavaScript numbers are modelled by `Int` (all arithmetic here is exact
integer arithmetic in the source); slot indices by `Nat`.  The platform's
`Intl.DateTimeFormat` facility is external to the repository: a zone's
local-time resolution is modelled as a function `Int → Int × Int` from a
UTC millisecond instant to the formatted (hour, minute) pair, with
`localHourMinuteFromUtcMs off` giving the concrete resolver of a
fixed-offset zone; offset resolution for the catalog is modelled as an
oracle `String → Option Int`, where `none` models the `RangeError` the
`Intl.DateTimeFormat` constructor throws on an unrecognized zone id.
-/

/-- One 15-minute slot of the reference UTC day, with the metadata the panel
computes for it: index, UTC start/end instants, the formatted local
(hour, minute) of each zone, each side's working flag and the overlap flag. -/
structure Slot where
  i : Nat
  slotStart : Int
  slotEnd : Int
  localLM : Int × Int
  otherLM : Int × Int
  localWork : Bool
  otherWork : Bool
  overlap : Bool
deriving Repr, DecidableEq

/-- A contiguous run of overlapping slots, `startIdx`/`endIdx` inclusive. -/
structure Seg where
  startIdx : Nat
  endIdx : Nat
deriving Repr, DecidableEq

/-- The working-window membership test of `MeetingPanel.jsx`:
`(h >= workStart && h < workEnd) || (h === workEnd && m === 0 && workEnd === 24)`. -/
def workTest (ws we h m : Int) : Bool :=
  (decide (ws ≤ h) && decide (h < we)) || (decide (h = we) && decide (m = 0) && decide (we = 24))

/-- Model of `localHourMinuteFromUtcMs` for a zone at a fixed UTC offset of
`offsetMin` minutes: the wall clock reads `utcMs + offsetMin * 60000`, and the
formatter reports its hour in `0..23` and minute in `0..59`. -/
def localHourMinuteFromUtcMs (offsetMin : Int) (utcMs : Int) : Int × Int :=
  let localMs := utcMs + offsetMin * 60000
  ((localMs.fdiv 3600000) % 24, (localMs.fdiv 60000) % 60)

/-- One slot of the grid, exactly as the loop body of `MeetingPanel.jsx`
builds it: `slotStart = utcDayStart + i * 15 * 60 * 1000`, a 15-minute span,
the two local times, the two working flags and their conjunction. -/
def mkSlot (lmLocal lmOther : Int → Int × Int) (utcDayStart ws we : Int) (i : Nat) : Slot :=
  let slotStart : Int := utcDayStart + (i : Int) * 15 * 60 * 1000
  let slotEnd : Int := slotStart + 15 * 60 * 1000
  let localLM := lmLocal slotStart
  let otherLM := lmOther slotStart
  let localWork := workTest ws we localLM.1 localLM.2
  let otherWork := workTest ws we otherLM.1 otherLM.2
  { i := i, slotStart := slotStart, slotEnd := slotEnd, localLM := localLM, otherLM := otherLM,
    localWork := localWork, otherWork := otherWork, overlap := localWork && otherWork }

/-- The 96-slot grid (`for (let i = 0; i < 96; i++)`). -/
def mkSlots (lmLocal lmOther : Int → Int × Int) (utcDayStart ws we : Int) : List Slot :=
  (List.range 96).map (mkSlot lmLocal lmOther utcDayStart ws we)

/-- One step of the segment scan of `overlapSegments` in `MeetingPanel.jsx`:
an overlapping slot opens or extends the current run, a non-overlapping slot
closes and pushes it. -/
def segStep : List Seg × Option Seg → Slot → List Seg × Option Seg
  | (segs, cur), s =>
    if s.overlap then
      match cur with
      | none => (segs, some ⟨s.i, s.i⟩)
      | some c => (segs, some ⟨c.startIdx, s.i⟩)
    else
      match cur with
      | none => (segs, none)
      | some c => (segs ++ [c], none)

/-- `overlapSegments` of `MeetingPanel.jsx`: scan the slots in order and
collect the contiguous overlap runs, pushing the still-open run at the end. -/
def overlapSegments (ss : List Slot) : List Seg :=
  let st := ss.foldl segStep ([], none)
  match st.2 with
  | none => st.1
  | some c => st.1 ++ [c]

/-- `hasFull3h` of `MeetingPanel.jsx`:
`overlapSegments.some(s => (s.endIdx - s.startIdx + 1) >= (3 * 4))`. -/
def hasFull3h (segs : List Seg) : Bool :=
  segs.any (fun s => decide (s.endIdx - s.startIdx + 1 ≥ 3 * 4))

/-- `earliestFull3h` of `MeetingPanel.jsx`: the first segment of the scan with
at least 12 slots yields `utcDayStart + seg.startIdx * 15 * 60 * 1000`;
with no such segment the result is `null`. -/
def earliestFull3h (utcDayStart : Int) : List Seg → Option Int
  | [] => none
  | seg :: rest =>
    if seg.endIdx - seg.startIdx + 1 ≥ 12 then
      some (utcDayStart + (seg.startIdx : Int) * 15 * 60 * 1000)
    else earliestFull3h utcDayStart rest

/-- Index `j` is covered by one of the segments. -/
def covered (E : List Seg) (j : Nat) : Prop :=
  ∃ t ∈ E, t.startIdx ≤ j ∧ j ≤ t.endIdx

/-- Segment `a` ends at least one slot before segment `b` starts. -/
def sep (a b : Seg) : Prop := a.endIdx + 1 < b.startIdx

/-- A segment qualifies when its duration `(endIdx - startIdx + 1) * 15`
minutes reaches the 180-minute minimum. -/
def qualSeg (s : Seg) : Prop := 180 ≤ (s.endIdx - s.startIdx + 1) * 15

/-- The spec's wording of working-window membership: local hour in the
half-open interval `[startHour, endHour)`, except that when `endHour = 24`
the boundary instant whose hour equals `endHour` with minute 0 is also
inside the window. -/
def workingSpec (ws we h m : Int) : Prop :=
  (ws ≤ h ∧ h < we) ∨ (we = 24 ∧ h = we ∧ m = 0)

theorem workTest_iff (ws we h m : Int) :
    workTest ws we h m = true ↔ workingSpec ws we h m := by
  simp only [workTest, workingSpec, Bool.or_eq_true, Bool.and_eq_true, decide_eq_true_eq]
  tauto

theorem mkSlots_length (lmLocal lmOther : Int → Int × Int) (u ws we : Int) :
    (mkSlots lmLocal lmOther u ws we).length = 96 := by
  simp [mkSlots]

theorem mkSlots_get (lmLocal lmOther : Int → Int × Int) (u ws we : Int) (i : Nat)
    (hi : i < (mkSlots lmLocal lmOther u ws we).length) :
    (mkSlots lmLocal lmOther u ws we).get ⟨i, hi⟩ = mkSlot lmLocal lmOther u ws we i := by
  simp [mkSlots]

theorem mkSlots_idx (lmLocal lmOther : Int → Int × Int) (u ws we : Int) (k : Nat)
    (hk : k < (mkSlots lmLocal lmOther u ws we).length) :
    ((mkSlots lmLocal lmOther u ws we).get ⟨k, hk⟩).i = k := by
  rw [mkSlots_get]; rfl

/-- Invariant of the segment scan after the slots of indices `0..n-1` have
been processed: `segs` holds the closed runs and `cur` the still-open one;
together they are well-formed, bounded, separated and cover exactly the
indices `j < n` whose overlap flag `f j` is true, with the open run ending
exactly at `n - 1`. -/
structure SegInv (f : Nat → Bool) (n : Nat) (segs : List Seg) (cur : Option Seg) : Prop where
  wf : ∀ t ∈ segs ++ cur.toList, t.startIdx ≤ t.endIdx
  bound : ∀ t ∈ segs, t.endIdx + 1 < n
  pw : List.Pairwise sep (segs ++ cur.toList)
  cov : ∀ j, j < n → (f j = true ↔ covered (segs ++ cur.toList) j)
  curEnd : ∀ c, cur = some c → c.endIdx + 1 = n

theorem covered_append_single (E : List Seg) (c : Seg) (j : Nat) :
    covered (E ++ [c]) j ↔ covered E j ∨ (c.startIdx ≤ j ∧ j ≤ c.endIdx) := by
  constructor
  · rintro ⟨t, ht, h1, h2⟩
    rcases List.mem_append.mp ht with ht | ht
    · exact Or.inl ⟨t, ht, h1, h2⟩
    · rcases List.mem_singleton.mp ht with rfl
      exact Or.inr ⟨h1, h2⟩
  · rintro (⟨t, ht, h1, h2⟩ | ⟨h1, h2⟩)
    · exact ⟨t, List.mem_append.mpr (Or.inl ht), h1, h2⟩
    · exact ⟨c, List.mem_append.mpr (Or.inr (List.mem_singleton.mpr rfl)), h1, h2⟩

theorem segInv_step (f : Nat → Bool) (n : Nat) (segs : List Seg) (cur : Option Seg) (s : Slot)
    (hi : s.i = n) (ho : s.overlap = f n) (h : SegInv f n segs cur) :
    SegInv f (n + 1) (segStep (segs, cur) s).1 (segStep (segs, cur) s).2 := by
  obtain ⟨hwf, hbound, hpw, hcov, hcurEnd⟩ := h
  by_cases hov : s.overlap = true
  · -- the slot overlaps: open or extend the current run
    cases cur with
    | none =>
      simp only [Option.toList_none, List.append_nil] at hwf hpw hcov
      simp only [segStep, hov, if_pos, hi]
      constructor
      · intro t ht
        simp only [Option.toList_some] at ht
        rcases List.mem_append.mp ht with ht | ht
        · exact hwf t ht
        · rcases List.mem_singleton.mp ht with rfl; exact le_refl n
      · intro t ht; exact Nat.lt_succ_of_lt (hbound t ht)
      · simp only [Option.toList_some]
        rw [List.pairwise_append]
        refine ⟨hpw, List.pairwise_singleton _ _, ?_⟩
        intro a ha b hb
        rcases List.mem_singleton.mp hb with rfl
        exact hbound a ha
      · intro j hj
        simp only [Option.toList_some]
        rw [covered_append_single]
        rcases Nat.lt_succ_iff_lt_or_eq.mp hj with hj' | rfl
        · rw [hcov j hj']
          constructor
          · exact Or.inl
          · rintro (hc | ⟨h1, h2⟩)
            · exact hc
            · dsimp only at h1 h2; omega
        · constructor
          · intro _; exact Or.inr ⟨le_refl j, le_refl j⟩
          · intro _; rw [← ho]; exact hov
      · intro c hc
        injection hc with hc
        subst hc
        rfl
    | some c =>
      simp only [Option.toList_some] at hwf hpw hcov
      simp only [segStep, hov, if_pos, hi]
      have hcEnd : c.endIdx + 1 = n := hcurEnd c rfl
      have hcwf : c.startIdx ≤ c.endIdx :=
        hwf c (List.mem_append.mpr (Or.inr (List.mem_singleton.mpr rfl)))
      rw [List.pairwise_append] at hpw
      obtain ⟨hpw1, _, hpw3⟩ := hpw
      constructor
      · intro t ht
        simp only [Option.toList_some] at ht
        rcases List.mem_append.mp ht with ht | ht
        · exact hwf t (List.mem_append.mpr (Or.inl ht))
        · rcases List.mem_singleton.mp ht with rfl
          show c.startIdx ≤ n
          omega
      · intro t ht; exact Nat.lt_succ_of_lt (hbound t ht)
      · simp only [Option.toList_some]
        rw [List.pairwise_append]
        refine ⟨hpw1, List.pairwise_singleton _ _, ?_⟩
        intro a ha b hb
        rcases List.mem_singleton.mp hb with rfl
        exact hpw3 a ha c (List.mem_singleton.mpr rfl)
      · intro j hj
        simp only [Option.toList_some]
        rw [covered_append_single]
        rcases Nat.lt_succ_iff_lt_or_eq.mp hj with hj' | rfl
        · rw [hcov j hj', covered_append_single]
          constructor
          · rintro (hc | ⟨h1, h2⟩)
            · exact Or.inl hc
            · exact Or.inr ⟨h1, by dsimp only; omega⟩
          · rintro (hc | ⟨h1, h2⟩)
            · exact Or.inl hc
            · dsimp only at h1 h2
              exact Or.inr ⟨h1, by omega⟩
        · constructor
          · intro _
            refine Or.inr ⟨?_, ?_⟩ <;> dsimp only <;> omega
          · intro _; rw [← ho]; exact hov
      · intro c' hc'
        injection hc' with hc'
        subst hc'
        rfl
  · -- the slot does not overlap: close the current run if one is open
    have hov' : s.overlap = false := by
      cases hx : s.overlap
      · rfl
      · exact absurd hx hov
    have hfn : f n = false := by rw [← ho]; exact hov'
    cases cur with
    | none =>
      simp only [Option.toList_none, List.append_nil] at hwf hpw hcov
      simp only [segStep, hov', Bool.false_eq_true, if_neg, not_false_iff]
      constructor
      · intro t ht
        simp only [Option.toList_none, List.append_nil] at ht
        exact hwf t ht
      · intro t ht; exact Nat.lt_succ_of_lt (hbound t ht)
      · simpa using hpw
      · intro j hj
        simp only [Option.toList_none, List.append_nil]
        rcases Nat.lt_succ_iff_lt_or_eq.mp hj with hj' | rfl
        · exact hcov j hj'
        · rw [hfn]
          constructor
          · intro hc; exact absurd hc (by simp)
          · rintro ⟨t, ht, h1, h2⟩
            have := hbound t ht
            omega
      · intro c hc; exact absurd hc (by simp)
    | some c =>
      simp only [Option.toList_some] at hwf hpw hcov
      simp only [segStep, hov', Bool.false_eq_true, if_neg, not_false_iff]
      have hcEnd : c.endIdx + 1 = n := hcurEnd c rfl
      constructor
      · intro t ht
        simp only [Option.toList_none, List.append_nil] at ht
        exact hwf t ht
      · intro t ht
        rcases List.mem_append.mp ht with ht | ht
        · exact Nat.lt_succ_of_lt (hbound t ht)
        · rcases List.mem_singleton.mp ht with rfl
          omega
      · simpa using hpw
      · intro j hj
        simp only [Option.toList_none, List.append_nil]
        rcases Nat.lt_succ_iff_lt_or_eq.mp hj with hj' | rfl
        · exact hcov j hj'
        · rw [hfn]
          constructor
          · intro hc; exact absurd hc (by simp)
          · rintro ⟨t, ht, h1, h2⟩
            rcases List.mem_append.mp ht with ht | ht
            · have := hbound t ht
              omega
            · rcases List.mem_singleton.mp ht with rfl
              omega
      · intro c' hc'; exact absurd hc' (by simp)

theorem segInv_fold (rest : List Slot) :
    ∀ (f : Nat → Bool) (n : Nat) (segs : List Seg) (cur : Option Seg),
    (∀ k (hk : k < rest.length),
        (rest.get ⟨k, hk⟩).i = n + k ∧ (rest.get ⟨k, hk⟩).overlap = f (n + k)) →
    SegInv f n segs cur →
    SegInv f (n + rest.length)
      (rest.foldl segStep (segs, cur)).1 (rest.foldl segStep (segs, cur)).2 := by
  induction rest with
  | nil => intro f n segs cur _ h; simpa using h
  | cons s rest' ih =>
    intro f n segs cur hk h
    have h0 := hk 0 (by simp)
    simp only [List.get] at h0
    have hstep := segInv_step f n segs cur s (by simpa using h0.1) (by simpa using h0.2) h
    have hk' : ∀ k (hkk : k < rest'.length),
        (rest'.get ⟨k, hkk⟩).i = (n + 1) + k ∧
        (rest'.get ⟨k, hkk⟩).overlap = f ((n + 1) + k) := by
      intro k hkk
      have := hk (k + 1) (by simpa using Nat.succ_lt_succ hkk)
      simp only [List.get] at this
      constructor
      · rw [this.1]; omega
      · rw [this.2]; congr 1; omega
    have := ih f (n + 1) (segStep (segs, cur) s).1 (segStep (segs, cur) s).2 hk'
      (by simpa using hstep)
    simp only [List.foldl_cons]
    have harith : n + (s :: rest').length = (n + 1) + rest'.length := by
      simp only [List.length_cons]; omega
    rw [harith]
    simpa using this

theorem overlapSegments_eq_fold (ss : List Slot) :
    overlapSegments ss =
      (ss.foldl segStep ([], none)).1 ++ (ss.foldl segStep ([], none)).2.toList := by
  cases h : (ss.foldl segStep ([], none)).2 with
  | none => simp [overlapSegments, h]
  | some c => simp [overlapSegments, h]

/-- The combined specification of the segment scan for a slot list with
positional indices: every segment is well-formed and in range, segments are
pairwise separated in ascending order, and the segments cover exactly the
slots whose overlap flag is true. -/
theorem overlapSegments_spec (ss : List Slot)
    (hidx : ∀ k (hk : k < ss.length), (ss.get ⟨k, hk⟩).i = k) :
    (∀ t ∈ overlapSegments ss, t.startIdx ≤ t.endIdx ∧ t.endIdx < ss.length) ∧
    List.Pairwise sep (overlapSegments ss) ∧
    (∀ j (hj : j < ss.length),
      ((ss.get ⟨j, hj⟩).overlap = true ↔ covered (overlapSegments ss) j)) := by
  classical
  set f : Nat → Bool := fun j => if hj : j < ss.length then (ss.get ⟨j, hj⟩).overlap else false
    with hf
  have hinit : SegInv f 0 [] none := by
    constructor
    · intro t ht; simp at ht
    · intro t ht; simp at ht
    · simp
    · intro j hj; omega
    · intro c hc; exact absurd hc (by simp)
  have hks : ∀ k (hk : k < ss.length),
      (ss.get ⟨k, hk⟩).i = 0 + k ∧ (ss.get ⟨k, hk⟩).overlap = f (0 + k) := by
    intro k hkk
    constructor
    · rw [hidx k hkk]; omega
    · simp only [hf, Nat.zero_add, dif_pos hkk]
  have hfold := segInv_fold ss f 0 [] none hks hinit
  rw [Nat.zero_add] at hfold
  obtain ⟨hwf, hbound, hpw, hcov, hcurEnd⟩ := hfold
  rw [← overlapSegments_eq_fold] at hwf hpw hcov
  refine ⟨?_, hpw, ?_⟩
  · intro t ht
    refine ⟨hwf t ht, ?_⟩
    rw [overlapSegments_eq_fold] at ht
    rcases List.mem_append.mp ht with ht | ht
    · have := hbound t ht; omega
    · cases hc : (ss.foldl segStep ([], none)).2 with
      | none => rw [hc] at ht; simp at ht
      | some c =>
        rw [hc] at ht
        rcases List.mem_singleton.mp (by simpa using ht) with rfl
        have := hcurEnd t hc; omega
  · intro j hj
    have := hcov j hj
    rw [hf] at this
    simpa [dif_pos hj] using this

/-- In a well-formed pairwise-separated segment list, the index one past the
end of any member segment is covered by no member. -/
theorem not_covered_succ_end (E : List Seg) (hwf : ∀ t ∈ E, t.startIdx ≤ t.endIdx)
    (hpw : List.Pairwise sep E) (t : Seg) (ht : t ∈ E) : ¬ covered E (t.endIdx + 1) := by
  rintro ⟨u, hu, h1, h2⟩
  obtain ⟨it, hit⟩ := List.get_of_mem ht
  obtain ⟨iu, hiu⟩ := List.get_of_mem hu
  rcases Nat.lt_trichotomy it.val iu.val with hlt | heq | hgt
  · have hsep : sep t u := by
      rw [← hit, ← hiu]
      exact List.pairwise_iff_get.mp hpw it iu hlt
    unfold sep at hsep
    omega
  · have : t = u := by
      rw [← hit, ← hiu]
      congr 1
      exact Fin.ext heq
    subst this
    omega
  · have hsep : sep u t := by
      rw [← hit, ← hiu]
      exact List.pairwise_iff_get.mp hpw iu it hgt
    unfold sep at hsep
    have := hwf t ht
    omega

theorem earliestFull3h_spec (u : Int) (segs : List Seg)
    (hwf : ∀ t ∈ segs, t.startIdx ≤ t.endIdx) (hpw : List.Pairwise sep segs) :
    (earliestFull3h u segs = none → ∀ t ∈ segs, ¬ qualSeg t) ∧
    (∀ ms, earliestFull3h u segs = some ms →
      ∃ t ∈ segs, qualSeg t ∧ ms = u + (t.startIdx : Int) * 15 * 60 * 1000 ∧
        ∀ t' ∈ segs, qualSeg t' → t.startIdx ≤ t'.startIdx) := by
  induction segs with
  | nil =>
    constructor
    · intro _ t ht; simp at ht
    · intro ms hms; simp [earliestFull3h] at hms
  | cons a l ih =>
    rw [List.pairwise_cons] at hpw
    obtain ⟨hpa, hpl⟩ := hpw
    have hwfa : a.startIdx ≤ a.endIdx := hwf a (List.mem_cons_self a l)
    have hwfl : ∀ t ∈ l, t.startIdx ≤ t.endIdx := fun t ht => hwf t (List.mem_cons_of_mem a ht)
    obtain ⟨ih1, ih2⟩ := ih hwfl hpl
    by_cases hq : a.endIdx - a.startIdx + 1 ≥ 12
    · have hqa : qualSeg a := by unfold qualSeg; omega
      constructor
      · intro hnone
        rw [earliestFull3h, if_pos hq] at hnone
        exact absurd hnone (by simp)
      · intro ms hms
        rw [earliestFull3h, if_pos hq, Option.some.injEq] at hms
        refine ⟨a, List.mem_cons_self a l, hqa, hms.symm, ?_⟩
        intro t' ht' _
        rcases List.mem_cons.mp ht' with rfl | ht'
        · exact le_refl _
        · have := hpa t' ht'
          unfold sep at this
          omega
    · have hqa : ¬ qualSeg a := by unfold qualSeg; omega
      constructor
      · intro hnone t ht
        rw [earliestFull3h, if_neg hq] at hnone
        rcases List.mem_cons.mp ht with rfl | ht
        · exact hqa
        · exact ih1 hnone t ht
      · intro ms hms
        rw [earliestFull3h, if_neg hq] at hms
        obtain ⟨t, htl, hqt, hmst, hmin⟩ := ih2 ms hms
        refine ⟨t, List.mem_cons_of_mem a htl, hqt, hmst, ?_⟩
        intro t' ht' hqt'
        rcases List.mem_cons.mp ht' with rfl | ht'
        · exact absurd hqt' hqa
        · exact hmin t' ht' hqt'

/-- C1. For every slot sequence with positional indices, the segments produced
by `overlapSegments` are exactly the maximal contiguous runs of
overlap-flagged slots: each segment is well-formed and in range; segments are
pairwise separated by at least one slot (`sep`), hence pairwise disjoint; they
are ordered by ascending start index; the union of the covered indices is
exactly the set of indices whose overlap flag is true; and the slot just after
any segment has overlap flag false. -/
theorem overlapSegments_maximal_runs (ss : List Slot)
    (hidx : ∀ k (hk : k < ss.length), (ss.get ⟨k, hk⟩).i = k) :
    (∀ t ∈ overlapSegments ss, t.startIdx ≤ t.endIdx ∧ t.endIdx < ss.length) ∧
    List.Pairwise sep (overlapSegments ss) ∧
    List.Pairwise (fun a b => a.startIdx < b.startIdx) (overlapSegments ss) ∧
    (∀ j (hj : j < ss.length),
      ((ss.get ⟨j, hj⟩).overlap = true ↔ covered (overlapSegments ss) j)) ∧
    (∀ t ∈ overlapSegments ss, ∀ (hj : t.endIdx + 1 < ss.length),
      (ss.get ⟨t.endIdx + 1, hj⟩).overlap = false) := by
  obtain ⟨h1, h2, h3⟩ := overlapSegments_spec ss hidx
  refine ⟨h1, h2, ?_, h3, ?_⟩
  · refine List.Pairwise.imp_of_mem ?_ h2
    intro a b ha _ hsep
    have := (h1 a ha).1
    unfold sep at hsep
    omega
  · intro t ht hj
    have hnc := not_covered_succ_end (overlapSegments ss) (fun t' ht' => (h1 t' ht').1) h2 t ht
    cases hx : (ss.get ⟨t.endIdx + 1, hj⟩).overlap with
    | false => rfl
    | true => exact absurd ((h3 (t.endIdx + 1) hj).mp hx) hnc

/-- Witness for C1 at the concrete scenario-3 grid (India UTC+5:30 against
UTC+0, window 9–17). -/
theorem overlapSegments_maximal_runs_witness :
    (∀ k (hk : k <
        (mkSlots (localHourMinuteFromUtcMs 330) (localHourMinuteFromUtcMs 0) 0 9 17).length),
      ((mkSlots (localHourMinuteFromUtcMs 330) (localHourMinuteFromUtcMs 0) 0 9 17).get
        ⟨k, hk⟩).i = k) ∧
    ((∀ t ∈ overlapSegments
        (mkSlots (localHourMinuteFromUtcMs 330) (localHourMinuteFromUtcMs 0) 0 9 17),
      t.startIdx ≤ t.endIdx ∧ t.endIdx <
        (mkSlots (localHourMinuteFromUtcMs 330) (localHourMinuteFromUtcMs 0) 0 9 17).length) ∧
    List.Pairwise sep (overlapSegments
      (mkSlots (localHourMinuteFromUtcMs 330) (localHourMinuteFromUtcMs 0) 0 9 17)) ∧
    List.Pairwise (fun a b => a.startIdx < b.startIdx) (overlapSegments
      (mkSlots (localHourMinuteFromUtcMs 330) (localHourMinuteFromUtcMs 0) 0 9 17)) ∧
    (∀ j (hj : j <
        (mkSlots (localHourMinuteFromUtcMs 330) (localHourMinuteFromUtcMs 0) 0 9 17).length),
      (((mkSlots (localHourMinuteFromUtcMs 330) (localHourMinuteFromUtcMs 0) 0 9 17).get
          ⟨j, hj⟩).overlap = true ↔
        covered (overlapSegments
          (mkSlots (localHourMinuteFromUtcMs 330) (localHourMinuteFromUtcMs 0) 0 9 17)) j)) ∧
    (∀ t ∈ overlapSegments
        (mkSlots (localHourMinuteFromUtcMs 330) (localHourMinuteFromUtcMs 0) 0 9 17),
      ∀ (hj : t.endIdx + 1 <
        (mkSlots (localHourMinuteFromUtcMs 330) (localHourMinuteFromUtcMs 0) 0 9 17).length),
      ((mkSlots (localHourMinuteFromUtcMs 330) (localHourMinuteFromUtcMs 0) 0 9 17).get
        ⟨t.endIdx + 1, hj⟩).overlap = false)) :=
  ⟨mkSlots_idx (localHourMinuteFromUtcMs 330) (localHourMinuteFromUtcMs 0) 0 9 17,
   overlapSegments_maximal_runs
     (mkSlots (localHourMinuteFromUtcMs 330) (localHourMinuteFromUtcMs 0) 0 9 17)
     (mkSlots_idx (localHourMinuteFromUtcMs 330) (localHourMinuteFromUtcMs 0) 0 9 17)⟩

/-- C2. For every pair of zones (arbitrary local-time resolvers) and every
work window, `hasFull3h` is true iff some segment's duration
`(endIdx - startIdx + 1) * 15` minutes is at least 180 (that is, at least 12
slots). -/
theorem hasFull3h_iff_qualifying (lmLocal lmOther : Int → Int × Int) (u ws we : Int) :
    hasFull3h (overlapSegments (mkSlots lmLocal lmOther u ws we)) = true ↔
    ∃ t ∈ overlapSegments (mkSlots lmLocal lmOther u ws we),
      180 ≤ (t.endIdx - t.startIdx + 1) * 15 := by
  simp only [hasFull3h, List.any_eq_true, decide_eq_true_eq]
  constructor
  · rintro ⟨t, ht, hq⟩; exact ⟨t, ht, by omega⟩
  · rintro ⟨t, ht, hq⟩; exact ⟨t, ht, by omega⟩

/-- C3. For every pair of zones and every work window: when no segment
qualifies (`hasFull3h` false) no start instant is reported; when one does,
the reported instant is `utcDayStart + startIdx * 15 * 60 * 1000` for the
qualifying segment of lowest start index — the earliest qualifying segment
of the linear scan, with no preference for longer segments. -/
theorem earliestFull3h_earliest_qualifying (lmLocal lmOther : Int → Int × Int) (u ws we : Int) :
    (hasFull3h (overlapSegments (mkSlots lmLocal lmOther u ws we)) = false →
      earliestFull3h u (overlapSegments (mkSlots lmLocal lmOther u ws we)) = none) ∧
    (hasFull3h (overlapSegments (mkSlots lmLocal lmOther u ws we)) = true →
      ∃ ms, earliestFull3h u (overlapSegments (mkSlots lmLocal lmOther u ws we)) = some ms ∧
        ∃ t ∈ overlapSegments (mkSlots lmLocal lmOther u ws we), qualSeg t ∧
          ms = u + (t.startIdx : Int) * 15 * 60 * 1000 ∧
          ∀ t' ∈ overlapSegments (mkSlots lmLocal lmOther u ws we),
            qualSeg t' → t.startIdx ≤ t'.startIdx) := by
  obtain ⟨h1, h2, -⟩ :=
    overlapSegments_spec (mkSlots lmLocal lmOther u ws we) (mkSlots_idx lmLocal lmOther u ws we)
  obtain ⟨hE1, hE2⟩ := earliestFull3h_spec u (overlapSegments (mkSlots lmLocal lmOther u ws we))
    (fun t ht => (h1 t ht).1) h2
  constructor
  · intro hfalse
    cases hE : earliestFull3h u (overlapSegments (mkSlots lmLocal lmOther u ws we)) with
    | none => rfl
    | some ms =>
      obtain ⟨t, ht, hqt, -, -⟩ := hE2 ms hE
      rw [hasFull3h, List.any_eq_false] at hfalse
      have := hfalse t ht
      unfold qualSeg at hqt
      simp only [decide_eq_true_eq] at this
      omega
  · intro htrue
    rw [hasFull3h, List.any_eq_true] at htrue
    obtain ⟨t0, ht0, hq0⟩ := htrue
    simp only [decide_eq_true_eq] at hq0
    cases hE : earliestFull3h u (overlapSegments (mkSlots lmLocal lmOther u ws we)) with
    | none =>
      have := hE1 hE t0 ht0
      unfold qualSeg at this
      omega
    | some ms => exact ⟨ms, rfl, hE2 ms hE⟩

/-- C4. For every pair of zones, every work window and every slot of the
grid, each side's working flag holds iff the side's formatted local
(hour, minute) satisfies the spec's membership rule (`workingSpec`: half-open
interval with the `endHour = 24` minute-0 exception), and the overlap flag is
the conjunction of the two working flags. -/
theorem slot_work_flags (lmLocal lmOther : Int → Int × Int) (u ws we : Int) :
    ∀ s ∈ mkSlots lmLocal lmOther u ws we,
      (s.localWork = true ↔ workingSpec ws we s.localLM.1 s.localLM.2) ∧
      (s.otherWork = true ↔ workingSpec ws we s.otherLM.1 s.otherLM.2) ∧
      s.overlap = (s.localWork && s.otherWork) := by
  intro s hs
  obtain ⟨i, -, rfl⟩ := List.mem_map.mp hs
  refine ⟨?_, ?_, rfl⟩
  · exact workTest_iff ws we _ _
  · exact workTest_iff ws we _ _

/-- Witness for C4 at slot 0 of the concrete scenario-3 grid. -/
theorem slot_work_flags_witness :
    (mkSlot (localHourMinuteFromUtcMs 330) (localHourMinuteFromUtcMs 0) 0 9 17 0 ∈
      mkSlots (localHourMinuteFromUtcMs 330) (localHourMinuteFromUtcMs 0) 0 9 17) ∧
    (((mkSlot (localHourMinuteFromUtcMs 330) (localHourMinuteFromUtcMs 0) 0 9 17 0).localWork =
        true ↔
      workingSpec 9 17
        (mkSlot (localHourMinuteFromUtcMs 330) (localHourMinuteFromUtcMs 0) 0 9 17 0).localLM.1
        (mkSlot (localHourMinuteFromUtcMs 330) (localHourMinuteFromUtcMs 0) 0 9 17 0).localLM.2) ∧
    ((mkSlot (localHourMinuteFromUtcMs 330) (localHourMinuteFromUtcMs 0) 0 9 17 0).otherWork =
        true ↔
      workingSpec 9 17
        (mkSlot (localHourMinuteFromUtcMs 330) (localHourMinuteFromUtcMs 0) 0 9 17 0).otherLM.1
        (mkSlot (localHourMinuteFromUtcMs 330) (localHourMinuteFromUtcMs 0) 0 9 17 0).otherLM.2) ∧
    (mkSlot (localHourMinuteFromUtcMs 330) (localHourMinuteFromUtcMs 0) 0 9 17 0).overlap =
      ((mkSlot (localHourMinuteFromUtcMs 330) (localHourMinuteFromUtcMs 0) 0 9 17 0).localWork &&
       (mkSlot (localHourMinuteFromUtcMs 330) (localHourMinuteFromUtcMs 0) 0 9 17 0).otherWork)) :=
  have hmem : mkSlot (localHourMinuteFromUtcMs 330) (localHourMinuteFromUtcMs 0) 0 9 17 0 ∈
      mkSlots (localHourMinuteFromUtcMs 330) (localHourMinuteFromUtcMs 0) 0 9 17 :=
    List.mem_map.mpr ⟨0, List.mem_range.mpr (by omega), rfl⟩
  ⟨hmem, slot_work_flags (localHourMinuteFromUtcMs 330) (localHourMinuteFromUtcMs 0) 0 9 17
    (mkSlot (localHourMinuteFromUtcMs 330) (localHourMinuteFromUtcMs 0) 0 9 17 0) hmem⟩

theorem mkSlot_slotStart (lmLocal lmOther : Int → Int × Int) (u ws we : Int) (i : Nat) :
    (mkSlot lmLocal lmOther u ws we i).slotStart = u + (i : Int) * 15 * 60 * 1000 := rfl

theorem mkSlot_slotEnd (lmLocal lmOther : Int → Int × Int) (u ws we : Int) (i : Nat) :
    (mkSlot lmLocal lmOther u ws we i).slotEnd =
      u + (i : Int) * 15 * 60 * 1000 + 15 * 60 * 1000 := rfl

/-- C5. For every invocation, the grid has exactly 96 = 1440/15 slots; slot
`i` starts at `utcDayStart + i * 15 * 60 * 1000` milliseconds and spans 15
minutes; starts are strictly increasing in the index, and each slot's end is
the next slot's start, so the 96 slots tile the reference day with no gaps
and no overlaps in UTC coverage. -/
theorem mkSlots_tile_day (lmLocal lmOther : Int → Int × Int) (u ws we : Int) :
    (mkSlots lmLocal lmOther u ws we).length = 96 ∧
    (96 : Nat) = 1440 / 15 ∧
    (∀ i (hi : i < (mkSlots lmLocal lmOther u ws we).length),
      ((mkSlots lmLocal lmOther u ws we).get ⟨i, hi⟩).slotStart =
          u + (i : Int) * 15 * 60 * 1000 ∧
      ((mkSlots lmLocal lmOther u ws we).get ⟨i, hi⟩).slotEnd =
          u + (i : Int) * 15 * 60 * 1000 + 15 * 60 * 1000) ∧
    (∀ i j (hi : i < (mkSlots lmLocal lmOther u ws we).length)
        (hj : j < (mkSlots lmLocal lmOther u ws we).length), i < j →
      ((mkSlots lmLocal lmOther u ws we).get ⟨i, hi⟩).slotStart <
        ((mkSlots lmLocal lmOther u ws we).get ⟨j, hj⟩).slotStart) ∧
    (∀ i (hi : i + 1 < (mkSlots lmLocal lmOther u ws we).length),
      ((mkSlots lmLocal lmOther u ws we).get ⟨i, Nat.lt_of_succ_lt hi⟩).slotEnd =
        ((mkSlots lmLocal lmOther u ws we).get ⟨i + 1, hi⟩).slotStart) := by
  refine ⟨mkSlots_length lmLocal lmOther u ws we, by norm_num, ?_, ?_, ?_⟩
  · intro i hi
    rw [mkSlots_get, mkSlot_slotStart, mkSlot_slotEnd]
    exact ⟨rfl, rfl⟩
  · intro i j hi hj hij
    rw [mkSlots_get, mkSlots_get, mkSlot_slotStart, mkSlot_slotStart]
    have : (i : Int) < (j : Int) := by exact_mod_cast hij
    omega
  · intro i hi
    rw [mkSlots_get, mkSlots_get, mkSlot_slotEnd, mkSlot_slotStart]
    push_cast
    ring

/-- Witness for C5 at the concrete scenario-3 grid. -/
theorem mkSlots_tile_day_witness :
    (mkSlots (localHourMinuteFromUtcMs 330) (localHourMinuteFromUtcMs 0) 0 9 17).length = 96 ∧
    (96 : Nat) = 1440 / 15 ∧
    (∀ i (hi : i <
        (mkSlots (localHourMinuteFromUtcMs 330) (localHourMinuteFromUtcMs 0) 0 9 17).length),
      ((mkSlots (localHourMinuteFromUtcMs 330) (localHourMinuteFromUtcMs 0) 0 9 17).get
          ⟨i, hi⟩).slotStart = 0 + (i : Int) * 15 * 60 * 1000 ∧
      ((mkSlots (localHourMinuteFromUtcMs 330) (localHourMinuteFromUtcMs 0) 0 9 17).get
          ⟨i, hi⟩).slotEnd = 0 + (i : Int) * 15 * 60 * 1000 + 15 * 60 * 1000) ∧
    (∀ i j (hi : i <
        (mkSlots (localHourMinuteFromUtcMs 330) (localHourMinuteFromUtcMs 0) 0 9 17).length)
        (hj : j <
        (mkSlots (localHourMinuteFromUtcMs 330) (localHourMinuteFromUtcMs 0) 0 9 17).length),
      i < j →
      ((mkSlots (localHourMinuteFromUtcMs 330) (localHourMinuteFromUtcMs 0) 0 9 17).get
          ⟨i, hi⟩).slotStart <
        ((mkSlots (localHourMinuteFromUtcMs 330) (localHourMinuteFromUtcMs 0) 0 9 17).get
          ⟨j, hj⟩).slotStart) ∧
    (∀ i (hi : i + 1 <
        (mkSlots (localHourMinuteFromUtcMs 330) (localHourMinuteFromUtcMs 0) 0 9 17).length),
      ((mkSlots (localHourMinuteFromUtcMs 330) (localHourMinuteFromUtcMs 0) 0 9 17).get
          ⟨i, Nat.lt_of_succ_lt hi⟩).slotEnd =
        ((mkSlots (localHourMinuteFromUtcMs 330) (localHourMinuteFromUtcMs 0) 0 9 17).get
          ⟨i + 1, hi⟩).slotStart) :=
  mkSlots_tile_day (localHourMinuteFromUtcMs 330) (localHourMinuteFromUtcMs 0) 0 9 17

/-- C10. For every work window and every local hour in `0..23` (the range the
time formatter always reports, as the last conjunct shows for the modelled
formatter), the membership test including the `endHour = 24` special branch
equals the plain half-open test — the branch's condition (hour equal to 24)
is never satisfied; and local midnight (0,0) is inside a window with
`endHour = 24` exactly when `startHour = 0`. -/
theorem workTest_eq_half_open (ws we h m : Int) (h0 : 0 ≤ h) (h24 : h < 24) :
    workTest ws we h m = decide (ws ≤ h ∧ h < we) ∧
    (0 ≤ ws → (workTest ws 24 0 0 = true ↔ ws = 0)) ∧
    (∀ off t, 0 ≤ (localHourMinuteFromUtcMs off t).1 ∧
      (localHourMinuteFromUtcMs off t).1 < 24) := by
  refine ⟨?_, ?_, ?_⟩
  · rw [Bool.eq_iff_iff]
    simp only [workTest, Bool.or_eq_true, Bool.and_eq_true, decide_eq_true_eq]
    omega
  · intro hws
    simp only [workTest, Bool.or_eq_true, Bool.and_eq_true, decide_eq_true_eq]
    omega
  · intro off t
    dsimp only [localHourMinuteFromUtcMs]
    constructor
    · exact Int.emod_nonneg _ (by norm_num)
    · exact Int.emod_lt_of_pos _ (by norm_num)

/-- Witness for C10 at hour 9, minute 0, window 9–17. -/
theorem workTest_eq_half_open_witness :
    ((0 : Int) ≤ 9 ∧ (9 : Int) < 24) ∧
    (workTest 9 17 9 0 = decide ((9 : Int) ≤ 9 ∧ (9 : Int) < 17) ∧
    ((0 : Int) ≤ 9 → (workTest 9 24 0 0 = true ↔ (9 : Int) = 0)) ∧
    (∀ off t, 0 ≤ (localHourMinuteFromUtcMs off t).1 ∧
      (localHourMinuteFromUtcMs off t).1 < 24)) :=
  ⟨⟨by decide, by decide⟩, workTest_eq_half_open 9 17 9 0 (by decide) (by decide)⟩

/-- C9 counterexample. In the claimed scenario — zoneA at UTC+0, zoneB at
UTC+5:30 (the panel's local zone, India), both with window {9,17} — the
single overlap segment is slots 36–45, whose start instant reads 9:00 on the
zoneA side and 14:30 on the zoneB side: the overlap window is NOT local
14:30–17:00 on the zoneA side as the claim states (that is the zoneB side's
local reading). -/
theorem scenario3_counterexample :
    overlapSegments
      (mkSlots (localHourMinuteFromUtcMs 330) (localHourMinuteFromUtcMs 0) 0 9 17) =
      [⟨36, 45⟩] ∧
    localHourMinuteFromUtcMs 0 (0 + (36 : Int) * 15 * 60 * 1000) = (9, 0) ∧
    localHourMinuteFromUtcMs 330 (0 + (36 : Int) * 15 * 60 * 1000) = (14, 30) ∧
    ((9, 0) : Int × Int) ≠ (14, 30) := by
  refine ⟨by decide, by decide, by decide, by decide⟩

/-- C9 as amended. ZoneA at UTC+0 and zoneB at UTC+5:30, both with window
{9,17}: the computation produces the non-empty segment list [⟨36, 45⟩]; the
overlap window reads 9:00–11:30 local on the zoneA side (14:30–17:00 local on
the zoneB side); its total duration is 150 minutes = 2.5 hours, below the
180-minute threshold, so `hasFull3h` is false while segments exist, and no
start instant is reported. -/
theorem scenario3_amended :
    overlapSegments
      (mkSlots (localHourMinuteFromUtcMs 330) (localHourMinuteFromUtcMs 0) 0 9 17) =
      [⟨36, 45⟩] ∧
    ((45 - 36 + 1) * 15 : Nat) = 150 ∧ (150 : Nat) < 180 ∧
    hasFull3h (overlapSegments
      (mkSlots (localHourMinuteFromUtcMs 330) (localHourMinuteFromUtcMs 0) 0 9 17)) = false ∧
    earliestFull3h 0 (overlapSegments
      (mkSlots (localHourMinuteFromUtcMs 330) (localHourMinuteFromUtcMs 0) 0 9 17)) = none ∧
    localHourMinuteFromUtcMs 0 (0 + (36 : Int) * 15 * 60 * 1000) = (9, 0) ∧
    localHourMinuteFromUtcMs 0 (0 + (46 : Int) * 15 * 60 * 1000) = (11, 30) ∧
    localHourMinuteFromUtcMs 330 (0 + (36 : Int) * 15 * 60 * 1000) = (14, 30) ∧
    localHourMinuteFromUtcMs 330 (0 + (46 : Int) * 15 * 60 * 1000) = (17, 0) := by
  refine ⟨by decide, by decide, by decide, by decide, by decide, by decide, by decide,
    by decide, by decide⟩

/-- C7 counterexample. The window {start 17, end 9} violates the documented
caller contract (`startHour < endHour`), yet the overlap computation raises
nothing: it returns the ordinary full 96-slot grid with no overlapping slot —
exactly the silently-empty result the spec says must never stand in for an
error. No `InvalidWindowError` exists anywhere in the computation. -/
theorem invalid_window_counterexample :
    (mkSlots (localHourMinuteFromUtcMs 330) (localHourMinuteFromUtcMs 0) 0 17 9).length = 96 ∧
    overlapSegments
      (mkSlots (localHourMinuteFromUtcMs 330) (localHourMinuteFromUtcMs 0) 0 17 9) = [] ∧
    hasFull3h (overlapSegments
      (mkSlots (localHourMinuteFromUtcMs 330) (localHourMinuteFromUtcMs 0) 0 17 9)) = false := by
  refine ⟨by decide, by decide, by decide⟩

/-- C7 as amended. The overlap computation performs no window validation at
all: for every window values — in range or not — it returns a normal result,
a 96-slot grid whose flags are the membership test applied as-is; out-of-range
windows are silently accepted, and no `InvalidWindowError` is ever raised (the
computation has no error outcome). -/
theorem no_window_validation (lmLocal lmOther : Int → Int × Int) (u ws we : Int) :
    (mkSlots lmLocal lmOther u ws we).length = 96 ∧
    ∀ s ∈ mkSlots lmLocal lmOther u ws we,
      s.localWork = workTest ws we s.localLM.1 s.localLM.2 ∧
      s.otherWork = workTest ws we s.otherLM.1 s.otherLM.2 ∧
      s.overlap = (s.localWork && s.otherWork) := by
  refine ⟨mkSlots_length lmLocal lmOther u ws we, ?_⟩
  intro s hs
  obtain ⟨i, -, rfl⟩ := List.mem_map.mp hs
  exact ⟨rfl, rfl, rfl⟩

/-- Does the character list `s` start with `pre`? (model of JS `startsWith`). -/
def listStarts : List Char → List Char → Bool
  | [], _ => true
  | _ :: _, [] => false
  | a :: as, b :: bs => decide (a = b) && listStarts as bs

/-- Model of `tz.startsWith(pre)`. -/
def strStarts (s pre : String) : Bool := listStarts pre.data s.data

/-- Model of `tz.includes(k)`: some suffix of `s` starts with `sub`. -/
def strContains (s sub : String) : Bool :=
  (List.range (s.data.length + 1)).any (fun k => listStarts sub.data (s.data.drop k))

/-- `continentOf` of `timeUtils.js`: the prefix-based continent heuristic,
with the South-America token allow-list for `America/` zones. -/
def continentOf (tz : String) : String :=
  if strStarts tz "Africa/" then "Africa"
  else if strStarts tz "Antarctica/" then "Antarctica"
  else if strStarts tz "Asia/" then "Asia"
  else if strStarts tz "Australia/" || strStarts tz "Pacific/" then "Australia"
  else if strStarts tz "Europe/" then "Europe"
  else if strStarts tz "America/" then
    if ["Argentina", "Sao_Paulo", "Bogota", "Lima", "Caracas", "Santiago", "Montevideo",
        "Asuncion", "La_Paz"].any (fun k => strContains tz k) then "South America"
    else "North America"
  else "Other"

/-- One entry of the zone catalog: `{ tz, offset, cont }` of `buildZonesList`. -/
structure ZoneEntry where
  tz : String
  offset : Int
  cont : String
deriving Repr, DecidableEq

/-- Code-point lexicographic comparison of character lists (the model of the
comparator's `localeCompare` tie-break on ASCII zone ids). -/
def chListLE : List Char → List Char → Bool
  | [], _ => true
  | _ :: _, [] => false
  | a :: as, b :: bs =>
    if a < b then true
    else if b < a then false
    else chListLE as bs

/-- Lexicographic comparison of zone ids. -/
def strLE (a b : String) : Bool := chListLE a.data b.data

/-- The sort comparator of `buildZonesList`
(`(a, b) => a.offset - b.offset || a.tz.localeCompare(b.tz)`) as a boolean
"a comes no later than b": offset ascending, ties by id ascending. -/
def zoneLE (a b : ZoneEntry) : Bool :=
  decide (a.offset < b.offset) || (decide (a.offset = b.offset) && strLE a.tz b.tz)

/-- Insert an entry into a comparator-sorted list (one step of the stable
sort modelling `arr.sort`). -/
def insertZ (a : ZoneEntry) : List ZoneEntry → List ZoneEntry
  | [] => [a]
  | b :: l => if zoneLE a b then a :: b :: l else b :: insertZ a l

/-- Stable sort by the comparator, modelling `arr.sort((a, b) => ...)`. -/
def sortZones (l : List ZoneEntry) : List ZoneEntry := l.foldr insertZ []

/-- The `zones.map(tz => ({ tz, offset: tzOffsetMinutes(tz, now), cont:
continentOf(tz) }))` step of `buildZonesList`.  `tzOffset` is the external
offset-resolution facility; `none` models the exception
`Intl.DateTimeFormat` throws on an unrecognized id, which the source does
not catch, so it aborts the whole map (result `none`). -/
def zoneEntriesOf (tzOffset : String → Option Int) : List String → Option (List ZoneEntry)
  | [] => some []
  | tz :: rest =>
    match tzOffset tz with
    | none => none
    | some off =>
      match zoneEntriesOf tzOffset rest with
      | none => none
      | some l => some ({ tz := tz, offset := off, cont := continentOf tz } :: l)

/-- `buildZonesList` of `timeUtils.js`: map every id to its entry (aborting
on a resolution failure, which the source does not catch), then sort by the
comparator. -/
def buildZonesList (tzOffset : String → Option Int) (zones : List String) :
    Option (List ZoneEntry) :=
  (zoneEntriesOf tzOffset zones).map sortZones

/-- Modelled from the spec: the skip-and-continue catalog build §4.3/§7
describe ("skip (do not include) any id for which offset resolution fails,
rather than aborting the whole build") — present in the spec's words only,
not in `timeUtils.js`. -/
def buildZonesListSkip (tzOffset : String → Option Int) (zones : List String) :
    List ZoneEntry :=
  sortZones (zones.filterMap (fun tz => (tzOffset tz).map
    (fun off => { tz := tz, offset := off, cont := continentOf tz })))

/-- A concrete offset-resolution oracle for witnesses: two known zones
resolve, every other id fails (as an unrecognized id does). -/
def res0 : String → Option Int :=
  fun tz =>
    if tz = "Asia/Kolkata" then some 330
    else if tz = "Europe/London" then some 0
    else none

theorem zoneEntriesOf_none_iff (tzOffset : String → Option Int) (zones : List String) :
    zoneEntriesOf tzOffset zones = none ↔ ∃ tz ∈ zones, tzOffset tz = none := by
  induction zones with
  | nil => simp [zoneEntriesOf]
  | cons z rest ih =>
    rw [zoneEntriesOf]
    cases hz : tzOffset z with
    | none => simp [hz]
    | some off =>
      cases hr : zoneEntriesOf tzOffset rest with
      | none =>
        simp only [List.mem_cons]
        constructor
        · intro _
          obtain ⟨tz, htz, hn⟩ := ih.mp hr
          exact ⟨tz, Or.inr htz, hn⟩
        · intro _; trivial
      | some l =>
        simp only [List.mem_cons]
        constructor
        · intro h; exact absurd h (by simp)
        · rintro ⟨tz, (rfl | htz), hn⟩
          · rw [hz] at hn; exact absurd hn (by simp)
          · have : zoneEntriesOf tzOffset rest = none := ih.mpr ⟨tz, htz, hn⟩
            rw [hr] at this
            exact absurd this (by simp)

/-- C6 counterexample. One unrecognized id aborts the whole catalog build:
with the oracle `res0` (under which "Bad/Zone" fails and "Asia/Kolkata"
resolves), the build of ["Asia/Kolkata", "Bad/Zone"] yields no catalog at
all, while the skip-and-continue build the claim describes would yield the
one-entry catalog. -/
theorem buildZonesList_abort_counterexample :
    buildZonesList res0 ["Asia/Kolkata", "Bad/Zone"] = none ∧
    res0 "Asia/Kolkata" = some 330 ∧
    res0 "Bad/Zone" = none ∧
    buildZonesListSkip res0 ["Asia/Kolkata", "Bad/Zone"] =
      [{ tz := "Asia/Kolkata", offset := 330, cont := "Asia" }] := by
  refine ⟨by decide, by decide, by decide, by decide⟩

/-- C6 as amended. The catalog builder does not skip a failing id: the build
fails (yields no catalog) exactly when some id in the enumeration fails
offset resolution, because the source has no handler around the resolution
call; with every id resolvable the build succeeds. -/
theorem buildZonesList_abort_iff (tzOffset : String → Option Int) (zones : List String) :
    buildZonesList tzOffset zones = none ↔ ∃ tz ∈ zones, tzOffset tz = none := by
  rw [buildZonesList, Option.map_eq_none', zoneEntriesOf_none_iff]

theorem chListLE_total : ∀ a b, chListLE a b = true ∨ chListLE b a = true := by
  intro a
  induction a with
  | nil => intro b; left; rfl
  | cons x as ih =>
    intro b
    cases b with
    | nil => right; rfl
    | cons y bs =>
      rcases lt_trichotomy x y with h | h | h
      · left; rw [chListLE, if_pos h]
      · subst h
        rcases ih bs with h' | h'
        · left; rw [chListLE, if_neg (lt_irrefl x), if_neg (lt_irrefl x)]; exact h'
        · right; rw [chListLE, if_neg (lt_irrefl x), if_neg (lt_irrefl x)]; exact h'
      · right; rw [chListLE, if_pos h]

theorem chListLE_trans : ∀ a b c, chListLE a b = true → chListLE b c = true →
    chListLE a c = true := by
  intro a
  induction a with
  | nil => intro b c _ _; rfl
  | cons x as ih =>
    intro b c hab hbc
    cases b with
    | nil => rw [chListLE] at hab; exact absurd hab (by simp)
    | cons y bs =>
      cases c with
      | nil => rw [chListLE] at hbc; exact absurd hbc (by simp)
      | cons z cs =>
        rw [chListLE] at hab hbc ⊢
        by_cases hxy : x < y
        · by_cases hyz : y < z
          · rw [if_pos (lt_trans hxy hyz)]
          · by_cases hzy : z < y
            · rw [if_neg hyz, if_pos hzy] at hbc; exact absurd hbc (by simp)
            · have hyzeq : y = z := le_antisymm (not_lt.mp hzy) (not_lt.mp hyz)
              subst hyzeq
              rw [if_pos hxy]
        · by_cases hyx : y < x
          · rw [if_neg hxy, if_pos hyx] at hab; exact absurd hab (by simp)
          · have hxyeq : x = y := le_antisymm (not_lt.mp hyx) (not_lt.mp hxy)
            subst hxyeq
            rw [if_neg hxy, if_neg hxy] at hab
            by_cases hxz : x < z
            · rw [if_pos hxz]
            · by_cases hzx : z < x
              · rw [if_neg hxz, if_pos hzx] at hbc; exact absurd hbc (by simp)
              · have hxzeq : x = z := le_antisymm (not_lt.mp hzx) (not_lt.mp hxz)
                subst hxzeq
                rw [if_neg hxz, if_neg hxz] at hbc ⊢
                exact ih bs cs hab hbc

theorem chListLE_antisymm : ∀ a b, chListLE a b = true → chListLE b a = true → a = b := by
  intro a
  induction a with
  | nil =>
    intro b _ hba
    cases b with
    | nil => rfl
    | cons y bs => rw [chListLE] at hba; exact absurd hba (by simp)
  | cons x as ih =>
    intro b hab hba
    cases b with
    | nil => rw [chListLE] at hab; exact absurd hab (by simp)
    | cons y bs =>
      rw [chListLE] at hab hba
      by_cases hxy : x < y
      · rw [if_neg (lt_asymm hxy), if_pos hxy] at hba; exact absurd hba (by simp)
      · by_cases hyx : y < x
        · rw [if_neg hxy, if_pos hyx] at hab; exact absurd hab (by simp)
        · have hxyeq : x = y := le_antisymm (not_lt.mp hyx) (not_lt.mp hxy)
          subst hxyeq
          rw [if_neg hxy, if_neg hxy] at hab hba
          rw [ih bs hab hba]

theorem str_eq_of_data_eq (s t : String) (h : s.data = t.data) : s = t := by
  cases s; cases t; exact congrArg String.mk h

theorem strLE_total (a b : String) : strLE a b = true ∨ strLE b a = true :=
  chListLE_total a.data b.data

theorem strLE_trans (a b c : String) (hab : strLE a b = true) (hbc : strLE b c = true) :
    strLE a c = true :=
  chListLE_trans a.data b.data c.data hab hbc

theorem strLE_antisymm (a b : String) (hab : strLE a b = true) (hba : strLE b a = true) :
    a = b :=
  str_eq_of_data_eq a b (chListLE_antisymm a.data b.data hab hba)

theorem zoneLE_total (a b : ZoneEntry) : zoneLE a b = true ∨ zoneLE b a = true := by
  unfold zoneLE
  simp only [Bool.or_eq_true, Bool.and_eq_true, decide_eq_true_eq]
  rcases lt_trichotomy a.offset b.offset with h | h | h
  · exact Or.inl (Or.inl h)
  · rcases strLE_total a.tz b.tz with h' | h'
    · exact Or.inl (Or.inr ⟨h, h'⟩)
    · exact Or.inr (Or.inr ⟨h.symm, h'⟩)
  · exact Or.inr (Or.inl h)

theorem zoneLE_trans (a b c : ZoneEntry) (hab : zoneLE a b = true) (hbc : zoneLE b c = true) :
    zoneLE a c = true := by
  unfold zoneLE at hab hbc ⊢
  simp only [Bool.or_eq_true, Bool.and_eq_true, decide_eq_true_eq] at hab hbc ⊢
  rcases hab with h1 | ⟨h1, h1'⟩ <;> rcases hbc with h2 | ⟨h2, h2'⟩
  · exact Or.inl (lt_trans h1 h2)
  · exact Or.inl (by omega)
  · exact Or.inl (by omega)
  · exact Or.inr ⟨by omega, strLE_trans _ _ _ h1' h2'⟩

theorem zoneLE_antisymm_of_cont (a b : ZoneEntry) (hab : zoneLE a b = true)
    (hba : zoneLE b a = true) (ha : a.cont = continentOf a.tz)
    (hb : b.cont = continentOf b.tz) : a = b := by
  unfold zoneLE at hab hba
  simp only [Bool.or_eq_true, Bool.and_eq_true, decide_eq_true_eq] at hab hba
  have hoff : a.offset = b.offset := by
    rcases hab with h | ⟨h, -⟩ <;> rcases hba with h' | ⟨h', -⟩ <;> omega
  have htz : a.tz = b.tz := by
    rcases hab with h | ⟨-, h1⟩
    · omega
    · rcases hba with h' | ⟨-, h2⟩
      · omega
      · exact strLE_antisymm _ _ h1 h2
  have hcont : a.cont = b.cont := by rw [ha, hb, htz]
  cases a; cases b
  simp only [ZoneEntry.mk.injEq]
  exact ⟨htz, hoff, hcont⟩

theorem insertZ_perm (a : ZoneEntry) (l : List ZoneEntry) : (insertZ a l).Perm (a :: l) := by
  induction l with
  | nil => exact List.Perm.refl _
  | cons b t ih =>
    rw [insertZ]
    by_cases h : zoneLE a b = true
    · rw [if_pos h]
    · rw [if_neg h]
      exact (List.Perm.cons b ih).trans (List.Perm.swap a b t)

theorem insertZ_sorted (a : ZoneEntry) (l : List ZoneEntry)
    (hl : List.Pairwise (fun x y => zoneLE x y = true) l) :
    List.Pairwise (fun x y => zoneLE x y = true) (insertZ a l) := by
  induction l with
  | nil => simp [insertZ]
  | cons b t ih =>
    rw [List.pairwise_cons] at hl
    obtain ⟨hb, ht⟩ := hl
    rw [insertZ]
    by_cases h : zoneLE a b = true
    · rw [if_pos h]
      rw [List.pairwise_cons]
      refine ⟨?_, List.pairwise_cons.mpr ⟨hb, ht⟩⟩
      intro x hx
      rcases List.mem_cons.mp hx with rfl | hx
      · exact h
      · exact zoneLE_trans a b x h (hb x hx)
    · rw [if_neg h]
      have hba : zoneLE b a = true := (zoneLE_total a b).resolve_left h
      rw [List.pairwise_cons]
      refine ⟨?_, ih ht⟩
      intro x hx
      rcases List.mem_cons.mp ((insertZ_perm a t).mem_iff.mp hx) with rfl | hx
      · exact hba
      · exact hb x hx

theorem sortZones_perm (l : List ZoneEntry) : (sortZones l).Perm l := by
  induction l with
  | nil => exact List.Perm.refl _
  | cons a t ih =>
    show (insertZ a (sortZones t)).Perm (a :: t)
    exact (insertZ_perm a (sortZones t)).trans (List.Perm.cons a ih)

theorem sortZones_sorted (l : List ZoneEntry) :
    List.Pairwise (fun x y => zoneLE x y = true) (sortZones l) := by
  induction l with
  | nil => simp [sortZones]
  | cons a t ih => exact insertZ_sorted a (sortZones t) ih

theorem sorted_perm_unique :
    ∀ (l₁ l₂ : List ZoneEntry),
      List.Pairwise (fun x y => zoneLE x y = true) l₁ →
      List.Pairwise (fun x y => zoneLE x y = true) l₂ →
      l₁.Perm l₂ → (∀ e ∈ l₁, e.cont = continentOf e.tz) → l₁ = l₂ := by
  intro l₁
  induction l₁ with
  | nil =>
    intro l₂ _ _ hp _
    exact (List.Perm.eq_nil hp.symm).symm
  | cons a t₁ ih =>
    intro l₂ h₁ h₂ hp hw
    cases l₂ with
    | nil => have := hp.length_eq; simp at this
    | cons b t₂ =>
      have hab : a = b := by
        by_contra hne
        have ha2 : a ∈ b :: t₂ := hp.mem_iff.mp (List.mem_cons_self a t₁)
        have hb1 : b ∈ a :: t₁ := hp.mem_iff.mpr (List.mem_cons_self b t₂)
        have hat2 : a ∈ t₂ := by
          rcases List.mem_cons.mp ha2 with h | h
          · exact absurd h hne
          · exact h
        have hbt1 : b ∈ t₁ := by
          rcases List.mem_cons.mp hb1 with h | h
          · exact absurd h.symm hne
          · exact h
        have hab' : zoneLE a b = true := (List.pairwise_cons.mp h₁).1 b hbt1
        have hba' : zoneLE b a = true := (List.pairwise_cons.mp h₂).1 a hat2
        exact hne (zoneLE_antisymm_of_cont a b hab' hba'
          (hw a (List.mem_cons_self a t₁)) (hw b hb1))
      subst hab
      have htp : t₁.Perm t₂ := hp.cons_inv
      have := ih t₂ (List.pairwise_cons.mp h₁).2 (List.pairwise_cons.mp h₂).2 htp
        (fun e he => hw e (List.mem_cons_of_mem a he))
      rw [this]

theorem zoneEntriesOf_some (tzOffset : String → Option Int) :
    ∀ (zones : List String) (es : List ZoneEntry), zoneEntriesOf tzOffset zones = some es →
      es.map ZoneEntry.tz = zones ∧
      ∀ e ∈ es, e.cont = continentOf e.tz ∧ tzOffset e.tz = some e.offset := by
  intro zones
  induction zones with
  | nil =>
    intro es h
    rw [zoneEntriesOf, Option.some.injEq] at h
    subst h
    exact ⟨rfl, by intro e he; simp at he⟩
  | cons z rest ih =>
    intro es h
    rw [zoneEntriesOf] at h
    cases hz : tzOffset z with
    | none => rw [hz] at h; exact absurd h (by simp)
    | some off =>
      rw [hz] at h
      cases hr : zoneEntriesOf tzOffset rest with
      | none => rw [hr] at h; exact absurd h (by simp)
      | some l =>
        rw [hr, Option.some.injEq] at h
        subst h
        obtain ⟨hmap, hall⟩ := ih l hr
        constructor
        · simp [hmap]
        · intro e he
          rcases List.mem_cons.mp he with rfl | he
          · exact ⟨rfl, by simpa using hz⟩
          · exact hall e he

theorem map_entry_eq (tzOffset : String → Option Int) (es : List ZoneEntry)
    (h : ∀ e ∈ es, e.cont = continentOf e.tz ∧ tzOffset e.tz = some e.offset) :
    (es.map ZoneEntry.tz).map
      (fun t => ({ tz := t, offset := (tzOffset t).getD 0, cont := continentOf t } :
        ZoneEntry)) = es := by
  induction es with
  | nil => rfl
  | cons e t ih =>
    have he := h e (List.mem_cons_self e t)
    simp only [List.map_cons]
    congr 1
    · cases e with
      | mk tz off cont =>
        simp only at he
        simp [he.1, he.2]
    · exact ih (fun x hx => h x (List.mem_cons_of_mem _ hx))

/-- C8 as amended. Whenever the build succeeds, its output is sorted
non-decreasing by offset with ties sorted non-decreasing by id; the output
ids are a permutation of the input enumeration (so each input occurrence —
including a duplicate — yields exactly one entry); when the input ids are
distinct the output ids are distinct; and the output is the same list for
any permutation of the input enumeration. -/
theorem buildZonesList_sorted_nodup (tzOffset : String → Option Int) (zones : List String)
    (l : List ZoneEntry) (h : buildZonesList tzOffset zones = some l) :
    List.Pairwise
      (fun a b => a.offset < b.offset ∨ (a.offset = b.offset ∧ strLE a.tz b.tz = true)) l ∧
    (l.map ZoneEntry.tz).Perm zones ∧
    (zones.Nodup → (l.map ZoneEntry.tz).Nodup) ∧
    (∀ zones' l', zones'.Perm zones → buildZonesList tzOffset zones' = some l' → l' = l) := by
  rw [buildZonesList] at h
  cases he : zoneEntriesOf tzOffset zones with
  | none => rw [he] at h; exact absurd h (by simp)
  | some es =>
    rw [he] at h
    simp only [Option.map_some', Option.some.injEq] at h
    subst h
    obtain ⟨hmap, hall⟩ := zoneEntriesOf_some tzOffset zones es he
    have hperm : (sortZones es).Perm es := sortZones_perm es
    have hsorted := sortZones_sorted es
    refine ⟨?_, ?_, ?_, ?_⟩
    · refine hsorted.imp ?_
      intro a b hab
      simpa only [zoneLE, Bool.or_eq_true, Bool.and_eq_true, decide_eq_true_eq] using hab
    · exact hmap ▸ (hperm.map ZoneEntry.tz)
    · intro hnd
      have hnd' : (es.map ZoneEntry.tz).Nodup := hmap ▸ hnd
      exact ((hperm.map ZoneEntry.tz).nodup_iff).mpr hnd'
    · intro zones' l' hzp hb'
      rw [buildZonesList] at hb'
      cases he' : zoneEntriesOf tzOffset zones' with
      | none => rw [he'] at hb'; exact absurd hb' (by simp)
      | some es' =>
        rw [he'] at hb'
        simp only [Option.map_some', Option.some.injEq] at hb'
        subst hb'
        obtain ⟨hmap', hall'⟩ := zoneEntriesOf_some tzOffset zones' es' he'
        have hes : es'.Perm es := by
          have h1 := map_entry_eq tzOffset es' hall'
          have h2 := map_entry_eq tzOffset es hall
          rw [← h1, ← h2, hmap, hmap']
          exact hzp.map _
        refine sorted_perm_unique (sortZones es') (sortZones es) (sortZones_sorted es')
          hsorted ((sortZones_perm es').trans (hes.trans hperm.symm)) ?_
        intro e he'
        exact (hall' e ((sortZones_perm es').mem_iff.mp he')).1

/-- C8 counterexample. The build does not deduplicate ids: an input
enumeration listing "Asia/Kolkata" twice yields a catalog with two entries
of the same id. -/
theorem buildZonesList_duplicate_counterexample :
    buildZonesList res0 ["Asia/Kolkata", "Asia/Kolkata"] =
      some [{ tz := "Asia/Kolkata", offset := 330, cont := "Asia" },
            { tz := "Asia/Kolkata", offset := 330, cont := "Asia" }] ∧
    ¬ (([{ tz := "Asia/Kolkata", offset := 330, cont := "Asia" },
         { tz := "Asia/Kolkata", offset := 330, cont := "Asia" }] : List ZoneEntry).map
        ZoneEntry.tz).Nodup := by
  refine ⟨by decide, by decide⟩

/-- Witness for C8 at the concrete oracle `res0` and the enumeration
["Europe/London", "Asia/Kolkata"]. -/
theorem buildZonesList_sorted_nodup_witness :
    (buildZonesList res0 ["Europe/London", "Asia/Kolkata"] =
      some [{ tz := "Europe/London", offset := 0, cont := "Europe" },
            { tz := "Asia/Kolkata", offset := 330, cont := "Asia" }]) ∧
    (List.Pairwise
      (fun (a b : ZoneEntry) =>
        a.offset < b.offset ∨ (a.offset = b.offset ∧ strLE a.tz b.tz = true))
      ([{ tz := "Europe/London", offset := 0, cont := "Europe" },
        { tz := "Asia/Kolkata", offset := 330, cont := "Asia" }] : List ZoneEntry) ∧
    (([{ tz := "Europe/London", offset := 0, cont := "Europe" },
       { tz := "Asia/Kolkata", offset := 330, cont := "Asia" }] : List ZoneEntry).map
        ZoneEntry.tz).Perm ["Europe/London", "Asia/Kolkata"] ∧
    ((["Europe/London", "Asia/Kolkata"] : List String).Nodup →
      (([{ tz := "Europe/London", offset := 0, cont := "Europe" },
         { tz := "Asia/Kolkata", offset := 330, cont := "Asia" }] : List ZoneEntry).map
        ZoneEntry.tz).Nodup) ∧
    (∀ zones' l', zones'.Perm ["Europe/London", "Asia/Kolkata"] →
      buildZonesList res0 zones' = some l' →
      l' = [{ tz := "Europe/London", offset := 0, cont := "Europe" },
            { tz := "Asia/Kolkata", offset := 330, cont := "Asia" }])) :=
  ⟨by decide, buildZonesList_sorted_nodup res0 ["Europe/London", "Asia/Kolkata"]
    [{ tz := "Europe/London", offset := 0, cont := "Europe" },
     { tz := "Asia/Kolkata", offset := 330, cont := "Asia" }] (by decide)⟩
